import Mathlib

/-!
Shallow embedding of the BER simulation pipeline (thomazritter/simulacao_redes2).

Conventions of the embedding:
* numpy bit vectors (dtype uint8) are `List ℕ`; every place the Python code
  casts with `np.asarray(…, dtype=np.uint8)` the embedding reduces the value
  `% 256`;
* real-valued numpy arrays are `List ℝ`, complex arrays are `List (ℝ × ℝ)`
  (real part, imaginary part);
* `np.random.randn` is modelled by an abstract stream `g : ℕ → ℝ` of standard
  normal draws together with a read position `k : ℕ`: a call that draws `n`
  samples returns `g k, g (k+1), …, g (k+n-1)` and advances the position to
  `k + n`;
* functions that can raise (`ValueError`) return `Option`; a total Lean
  function models a Python function with no raising path;
* Python `float` arithmetic is modelled exactly over `ℝ` (BER ratios, which
  are quotients of machine integers, over `ℚ`).
-/

/-- `encoding.text_to_bits` digit helper: the binary digits of `n`, most
significant first, as produced by Python `format(n, "b")` (empty for 0). -/
def natBinMSB (n : ℕ) : List ℕ :=
  if h : n = 0 then [] else natBinMSB (n / 2) ++ [n % 2]
termination_by n
decreasing_by exact Nat.div_lt_self (Nat.pos_of_ne_zero h) one_lt_two

/-- Python `format(n, "08b")`: zero-pad the binary digits on the left to at
least 8 characters (longer when `n ≥ 256`, exactly as `format` behaves). -/
def format08b (n : ℕ) : List ℕ :=
  List.replicate (8 - (natBinMSB n).length) 0 ++ natBinMSB n

/-- `encoding.text_to_bits`: the message is a list of character codes
(`ord` of each character); each code contributes its `format(code, "08b")`
digits. -/
def textToBits (message : List ℕ) : List ℕ :=
  message.flatMap format08b

/-- One byte reconstruction step of `encoding.bits_to_text`:
`valor_decimal = (valor_decimal << 1) | int(bit)` folded over a byte. -/
def byteVal (byte : List ℕ) : ℕ :=
  byte.foldl (fun v b => (v <<< 1) ||| b) 0

/-- The `for indice_inicio in range(0, len(bits_array), 8)` loop of
`encoding.bits_to_text`: consume the bit list in groups of 8. -/
def toBytes : List ℕ → List ℕ
  | b0 :: b1 :: b2 :: b3 :: b4 :: b5 :: b6 :: b7 :: rest =>
      byteVal [b0, b1, b2, b3, b4, b5, b6, b7] :: toBytes rest
  | _ => []

/-- `encoding.bits_to_text`: cast to uint8, raise (`none`) unless the length
is a multiple of 8, else rebuild the character codes byte by byte. -/
def bitsToText (bits : List ℕ) : Option (List ℕ) :=
  let bs := bits.map (· % 256)
  if bits.length % 8 = 0 then some (toBytes bs) else none

/-- `encoding.manchester_encode`: after the uint8 cast, each input value `x`
produces the pair `(1 - x, x)` in uint8 arithmetic (positions `0::2` get
`1 - bits`, positions `1::2` get `bits`). -/
def manchesterEncode (bits : List ℕ) : List ℕ :=
  bits.flatMap fun x => [(257 - x % 256) % 256, x % 256]

/-- The slicing core of `encoding.manchester_decode`: `encoded[1::2]` after
the uint8 cast — the second element of each consecutive pair. -/
def manchesterDecodeRun : List ℕ → List ℕ
  | _ :: b :: rest => b % 256 :: manchesterDecodeRun rest
  | _ => []

/-- `encoding.manchester_decode`: raises (`none`) when the input length is
odd, otherwise keeps the second element of each pair. -/
def manchesterDecode (encoded : List ℕ) : Option (List ℕ) :=
  if encoded.length % 2 = 0 then some (manchesterDecodeRun encoded) else none

/-- `modulation.bpsk_modulate`: uint8 cast, then `2.0 * bits - 1.0`. -/
def bpskModulate (bits : List ℕ) : List ℝ :=
  bits.map fun b => 2 * ((b % 256 : ℕ) : ℝ) - 1

/-- `modulation.bpsk_demodulate`: threshold decision `symbol >= 0 → 1`. -/
noncomputable def bpskDemodulate (symbols : List ℝ) : List ℕ :=
  symbols.map fun s => if 0 ≤ s then 1 else 0

/-- The Gray map of `modulation.qpsk_modulate` on one (uint8) bit pair,
before the `1/sqrt 2` normalization; `none` is the `ValueError` branch for a
pair that is not made of bits. -/
def qpskMapPair (b0 b1 : ℕ) : Option (ℝ × ℝ) :=
  if b0 = 0 ∧ b1 = 0 then some (1, 1)
  else if b0 = 0 ∧ b1 = 1 then some (-1, 1)
  else if b0 = 1 ∧ b1 = 1 then some (-1, -1)
  else if b0 = 1 ∧ b1 = 0 then some (1, -1)
  else none

/-- The `reshape(-1, 2)` + mapping loop of `modulation.qpsk_modulate` over an
even-length bit list. -/
def qpskPairs : List ℕ → Option (List (ℝ × ℝ))
  | [] => some []
  | b0 :: b1 :: rest =>
      match qpskMapPair b0 b1, qpskPairs rest with
      | some s, some t => some (s :: t)
      | _, _ => none
  | _ => none

/-- `modulation.qpsk_modulate`: uint8 cast, pad one zero bit when the length
is odd (recording `padding = 1`), Gray-map the pairs, normalize by
`sqrt 2`. -/
noncomputable def qpskModulate (bits : List ℕ) : Option (List (ℝ × ℝ) × ℕ) :=
  let bs := bits.map (· % 256)
  let padding := if bs.length % 2 = 1 then 1 else 0
  let padded := if bs.length % 2 = 1 then bs ++ [0] else bs
  match qpskPairs padded with
  | none => none
  | some syms =>
      some (syms.map (fun p => (p.1 / Real.sqrt 2, p.2 / Real.sqrt 2)), padding)

/-- The quadrant decision of `modulation.qpsk_demodulate` for one
(denormalized) symbol. -/
noncomputable def quadrantBits (p : ℝ × ℝ) : List ℕ :=
  if 0 ≤ p.1 ∧ 0 ≤ p.2 then [0, 0]
  else if p.1 < 0 ∧ 0 ≤ p.2 then [0, 1]
  else if p.1 < 0 ∧ p.2 < 0 then [1, 1]
  else [1, 0]

/-- `modulation.qpsk_demodulate`: denormalize by `sqrt 2`, decide each
quadrant, then strip the trailing `padding` bits (the Python slice
`[:-padding]` is only applied when `padding > 0`). It performs no length
check and has no raising path. -/
noncomputable def qpskDemodulate (symbols : List (ℝ × ℝ)) (padding : ℕ) : List ℕ :=
  let des := symbols.map fun p => (p.1 * Real.sqrt 2, p.2 * Real.sqrt 2)
  let bits := des.flatMap quadrantBits
  if 0 < padding then bits.take (bits.length - padding) else bits

/-- `np.mean(np.abs(signal) ** 2)` for a real signal. -/
noncomputable def meanPower (signal : List ℝ) : ℝ :=
  (signal.map fun x => x ^ 2).sum / signal.length

/-- `np.mean(np.abs(signal) ** 2)` for a complex signal. -/
noncomputable def meanPowerC (signal : List (ℝ × ℝ)) : ℝ :=
  (signal.map fun z => z.1 ^ 2 + z.2 ^ 2).sum / signal.length

/-- `channel.add_awgn` on a real signal. Zero mean power returns the signal
unchanged and consumes no random draws; otherwise noise of standard
deviation `sqrt (P / 10^(snr/10))` is added sample-wise from a fresh
`randn` buffer (stream positions `k, …, k + n - 1`), advancing the stream
position by the signal length. -/
noncomputable def addAwgnReal (signal : List ℝ) (snrDb : ℝ) (g : ℕ → ℝ) (k : ℕ) :
    List ℝ × ℕ :=
  let snrLinear : ℝ := (10 : ℝ) ^ (snrDb / 10)
  let p := meanPower signal
  if p = 0 then (signal, k)
  else
    let sd := Real.sqrt (p / snrLinear)
    (List.zipWith (fun x i => x + sd * g (k + i)) signal (List.range signal.length),
      k + signal.length)

/-- `channel.add_awgn` on a complex signal: independent real and imaginary
noise, each of variance `N/2`; the real buffer occupies stream positions
`k … k+n-1` and the imaginary buffer positions `k+n … k+2n-1`. -/
noncomputable def addAwgnComplex (signal : List (ℝ × ℝ)) (snrDb : ℝ) (g : ℕ → ℝ)
    (k : ℕ) : List (ℝ × ℝ) × ℕ :=
  let snrLinear : ℝ := (10 : ℝ) ^ (snrDb / 10)
  let p := meanPowerC signal
  if p = 0 then (signal, k)
  else
    let sd := Real.sqrt (p / snrLinear / 2)
    (List.zipWith
      (fun z i => (z.1 + sd * g (k + i), z.2 + sd * g (k + signal.length + i)))
      signal (List.range signal.length),
      k + 2 * signal.length)

/-- `simulation.bit_error_rate`: compare over the shorter length (after the
uint8 cast), count mismatches, `BER = errors / compared` (`0` when the
compared length is `0`). Returns `(BER, errors, compared length)`. -/
def bitErrorRate (original received : List ℕ) : ℚ × ℕ × ℕ :=
  let n := min original.length received.length
  if n = 0 then (0, 0, 0)
  else
    let o := (original.take n).map (· % 256)
    let r := (received.take n).map (· % 256)
    let errors := (o.zip r).countP fun p => p.1 != p.2
    ((errors : ℚ) / (n : ℚ), errors, n)

/-- The Eb/N0 → Es/N0 conversion of `simulation.simulate_ber_bpsk`
(PASSO 3): with Manchester each information bit spans two symbols. -/
noncomputable def bpskEsN0 (useManchester : Bool) (snrEbN0Db : ℝ) : ℝ :=
  if useManchester then snrEbN0Db - 10 * Real.logb 10 2 else snrEbN0Db

/-- The Eb/N0 → Es/N0 conversion of `simulation.simulate_ber_qpsk`
(PASSO 3): Manchester's 2× expansion cancels QPSK's 2 bits per symbol. -/
noncomputable def qpskEsN0 (useManchester : Bool) (snrEbN0Db : ℝ) : ℝ :=
  if useManchester then snrEbN0Db else snrEbN0Db + 10 * Real.logb 10 2

/-- One SNR point of the `simulate_ber_bpsk` loop (baseband path,
`use_carrier=False`, the default of `run_full_simulation`): modulate the
transmitted bits, pass Es/N0 to the channel, demodulate, optionally
Manchester-decode, and compare with the original bits. Returns the point's
BER and the advanced random-stream position. -/
noncomputable def bpskStep (tx orig : List ℕ) (useManchester : Bool) (snrDb : ℝ)
    (g : ℕ → ℝ) (k : ℕ) : ℚ × ℕ :=
  let syms := bpskModulate tx
  let noisy := addAwgnReal syms (bpskEsN0 useManchester snrDb) g k
  let demod := bpskDemodulate noisy.1
  let received := if useManchester then manchesterDecodeRun demod else demod
  ((bitErrorRate orig received).1, noisy.2)

/-- The `for snr_eb_n0_db in snr_db_values` loop of `simulate_ber_bpsk`:
each SNR point calls the channel once, threading the random-stream
position. -/
noncomputable def simulateBerBpskLoop (tx orig : List ℕ) (snrs : List ℝ)
    (useManchester : Bool) (g : ℕ → ℝ) (k : ℕ) : List ℚ × ℕ :=
  match snrs with
  | [] => ([], k)
  | snr :: rest =>
      let r := bpskStep tx orig useManchester snr g k
      let tail := simulateBerBpskLoop tx orig rest useManchester g r.2
      (r.1 :: tail.1, tail.2)

/-- `simulation.simulate_ber_bpsk` (baseband path): optional Manchester
encoding of the information bits, then the per-SNR loop. -/
noncomputable def simulateBerBpsk (bits : List ℕ) (snrs : List ℝ)
    (useManchester : Bool) (g : ℕ → ℝ) (k : ℕ) : List ℚ × ℕ :=
  let tx := if useManchester then manchesterEncode bits else bits
  simulateBerBpskLoop tx bits snrs useManchester g k

/-- One SNR point of the `simulate_ber_qpsk` loop (baseband path). -/
noncomputable def qpskStep (syms : List (ℝ × ℝ)) (padding : ℕ) (orig : List ℕ)
    (useManchester : Bool) (snrDb : ℝ) (g : ℕ → ℝ) (k : ℕ) : ℚ × ℕ :=
  let noisy := addAwgnComplex syms (qpskEsN0 useManchester snrDb) g k
  let demod := qpskDemodulate noisy.1 padding
  let received := if useManchester then manchesterDecodeRun demod else demod
  ((bitErrorRate orig received).1, noisy.2)

/-- The per-SNR loop of `simulate_ber_qpsk`. -/
noncomputable def simulateBerQpskLoop (syms : List (ℝ × ℝ)) (padding : ℕ)
    (orig : List ℕ) (snrs : List ℝ) (useManchester : Bool) (g : ℕ → ℝ) (k : ℕ) :
    List ℚ × ℕ :=
  match snrs with
  | [] => ([], k)
  | snr :: rest =>
      let r := qpskStep syms padding orig useManchester snr g k
      let tail := simulateBerQpskLoop syms padding orig rest useManchester g r.2
      (r.1 :: tail.1, tail.2)

/-- `simulation.simulate_ber_qpsk` (baseband path): optional Manchester
encoding, QPSK modulation (whose `ValueError` propagates as `none`), then
the per-SNR loop. -/
noncomputable def simulateBerQpsk (bits : List ℕ) (snrs : List ℝ)
    (useManchester : Bool) (g : ℕ → ℝ) (k : ℕ) : Option (List ℚ × ℕ) :=
  let tx := if useManchester then manchesterEncode bits else bits
  match qpskModulate tx with
  | none => none
  | some sp => some (simulateBerQpskLoop sp.1 sp.2 bits snrs useManchester g k)

/-- The parameters accepted by `simulation.run_full_simulation`
(`def run_full_simulation(message=…, snr_db_values=None, output_dir=None)`). -/
def runFullSimulationParams : List String :=
  ["message", "snr_db_values", "output_dir"]

/-- The keyword arguments of each `run_full_simulation(…)` call in
`main.main`. -/
def mainCallKwargs : List String :=
  ["iterations", "message", "output_dir"]

/-- Python keyword-argument binding: a call is well formed only when every
keyword names a declared parameter (none of the parameters is
positional-only and there is no `**kwargs`); otherwise it raises
`TypeError`. -/
def callBindsOk (params kwargs : List String) : Bool :=
  kwargs.all fun kw => params.contains kw

/-- The result computation of `simulation.run_full_simulation` (default
configuration: `use_manchester=True`, `use_carrier=False`,
`ENABLE_CARRIER_ANALYSIS=False`): one `simulate_ber_bpsk` call and one
`simulate_ber_qpsk` call on the message bits — a single trial per scheme,
no trial loop and no averaging. Returns `(snrs, BER_BPSK, BER_QPSK)`. -/
noncomputable def runFullSimulation (message : List ℕ) (snrs : List ℝ)
    (g : ℕ → ℝ) (k : ℕ) : List ℝ × List ℚ × Option (List ℚ) :=
  let bits := textToBits message
  let bpsk := simulateBerBpsk bits snrs true g k
  let qpsk := simulateBerQpsk bits snrs true g bpsk.2
  (snrs, bpsk.1, Option.map Prod.fst qpsk)

/-- Number of standard-normal draws one `add_awgn` call consumes on a real
signal: none for a null signal, one per sample otherwise. -/
noncomputable def awgnConsumedReal (signal : List ℝ) : ℕ :=
  if meanPower signal = 0 then 0 else signal.length

/-! ## Helper lemmas -/

lemma quadrantBits_length (p : ℝ × ℝ) : (quadrantBits p).length = 2 := by
  unfold quadrantBits
  repeat' split
  all_goals rfl

lemma quadrantBits_mem {p : ℝ × ℝ} {b : ℕ} (h : b ∈ quadrantBits p) :
    b = 0 ∨ b = 1 := by
  unfold quadrantBits at h
  repeat' split at h
  all_goals (simp_all; try tauto)

lemma flatMap_quadrantBits_length (l : List (ℝ × ℝ)) :
    (l.flatMap quadrantBits).length = 2 * l.length := by
  induction l with
  | nil => simp
  | cons p t ih =>
      simp only [List.flatMap_cons, List.length_append, quadrantBits_length, ih,
        List.length_cons]
      ring

/-! ## Claim theorems -/

/-- Claim C2: the SNR handed to the channel inside `bpskStep`/`qpskStep`
is the Es/N0 value obtained from Eb/N0 by exactly four cases: antipodal
with line coding subtracts `10*log10 2`, antipodal without line coding is
unchanged, quadrature with line coding is unchanged, quadrature without
line coding adds `10*log10 2`. -/
theorem C2_esn0_conversion : ∀ snrEbN0Db : ℝ,
    bpskEsN0 true snrEbN0Db = snrEbN0Db - 10 * Real.logb 10 2 ∧
    bpskEsN0 false snrEbN0Db = snrEbN0Db ∧
    qpskEsN0 true snrEbN0Db = snrEbN0Db ∧
    qpskEsN0 false snrEbN0Db = snrEbN0Db + 10 * Real.logb 10 2 := by
  intro snr
  refine ⟨?_, ?_, ?_, ?_⟩ <;> simp [bpskEsN0, qpskEsN0]

/-- Claim C10: the demodulators re-establish the bit invariant on any
channel output: `bpskDemodulate` preserves the length and yields only
values in 0/1, `qpskDemodulate` yields only values in 0/1, and zero ties
break toward bit 1 (BPSK) and toward quadrant I, bits (0,0) (QPSK). -/
theorem C10_demodulators_reestablish_bits :
    (∀ symbols : List ℝ,
        (bpskDemodulate symbols).length = symbols.length ∧
        ∀ b ∈ bpskDemodulate symbols, b = 0 ∨ b = 1) ∧
    (∀ (symbols : List (ℝ × ℝ)) (padding : ℕ),
        ∀ b ∈ qpskDemodulate symbols padding, b = 0 ∨ b = 1) ∧
    bpskDemodulate [0] = [1] ∧
    qpskDemodulate [(0, 0)] 0 = [0, 0] := by
  refine ⟨?_, ?_, ?_, ?_⟩
  · intro symbols
    constructor
    · simp [bpskDemodulate]
    · intro b hb
      simp only [bpskDemodulate, List.mem_map] at hb
      obtain ⟨s, -, hs⟩ := hb
      split at hs <;> omega
  · intro symbols padding b hb
    simp only [qpskDemodulate] at hb
    split at hb
    · have := List.mem_of_mem_take hb
      simp only [List.mem_flatMap] at this
      obtain ⟨p, -, hp⟩ := this
      exact quadrantBits_mem hp
    · simp only [List.mem_flatMap] at hb
      obtain ⟨p, -, hp⟩ := hb
      exact quadrantBits_mem hp
  · simp [bpskDemodulate]
  · simp [qpskDemodulate, quadrantBits]

/-- Claim C8 counterexample: `qpsk_demodulate` does not raise on an
odd-length input — a single (odd count) symbol demodulates successfully to
a definite bit pair, contradicting the claim that quadrature decode raises
with InvalidLength on odd length. -/
theorem C8_odd_symbol_count_decodes :
    qpskDemodulate [((1 : ℝ), 1)] 0 = [0, 0] := by
  simp [qpskDemodulate, quadrantBits, Real.sqrt_nonneg]

/-- Claim C8 (amended): `bits_to_text` raises exactly when the bit count is
not a multiple of 8 and `manchester_decode` raises exactly when its input
length is odd, while quadrature demodulation performs no length validation
and never raises: it accepts any symbol count (odd included) and returns
`2 * #symbols` bits minus the stripped padding. -/
theorem C8_invalid_length_errors :
    (∀ bits : List ℕ, (bitsToText bits).isSome ↔ bits.length % 8 = 0) ∧
    (∀ encoded : List ℕ,
        (manchesterDecode encoded).isSome ↔ encoded.length % 2 = 0) ∧
    (∀ (symbols : List (ℝ × ℝ)) (padding : ℕ),
        (qpskDemodulate symbols padding).length =
          if 0 < padding then 2 * symbols.length - padding
          else 2 * symbols.length) := by
  refine ⟨?_, ?_, ?_⟩
  · intro bits
    unfold bitsToText
    split <;> simp_all
  · intro encoded
    unfold manchesterDecode
    split <;> simp_all
  · intro symbols padding
    simp only [qpskDemodulate]
    split
    · rw [List.length_take, flatMap_quadrantBits_length, List.length_map]
      omega
    · rw [flatMap_quadrantBits_length, List.length_map]

/-- Claim C6: `bit_error_rate` compares position by position over the
shorter length, returns the mismatch count and `BER = errors / compared`,
returns BER 0 when the compared length is 0, and the BER always lies in
`[0, 1]`. -/
theorem C6_bit_error_rate : ∀ original received : List ℕ,
    (min original.length received.length = 0 →
      bitErrorRate original received = (0, 0, 0)) ∧
    (min original.length received.length ≠ 0 →
      (bitErrorRate original received).2.2 =
          min original.length received.length ∧
      (bitErrorRate original received).2.1 =
          (((original.take (min original.length received.length)).map (· % 256)).zip
            ((received.take (min original.length received.length)).map (· % 256))).countP
            (fun p => p.1 != p.2) ∧
      (bitErrorRate original received).2.1 ≤
          min original.length received.length ∧
      (bitErrorRate original received).1 =
          ((bitErrorRate original received).2.1 : ℚ) /
            ((bitErrorRate original received).2.2 : ℚ)) ∧
    0 ≤ (bitErrorRate original received).1 ∧
    (bitErrorRate original received).1 ≤ 1 := by
  intro original received
  set n := min original.length received.length with hn
  have hcount :
      ∀ (o r : List ℕ),
        (((o.take n).map (· % 256)).zip ((r.take n).map (· % 256))).countP
            (fun p => p.1 != p.2) ≤ n := by
    intro o r
    calc (((o.take n).map (· % 256)).zip ((r.take n).map (· % 256))).countP
          (fun p => p.1 != p.2)
        ≤ (((o.take n).map (· % 256)).zip ((r.take n).map (· % 256))).length :=
          List.countP_le_length _
      _ ≤ ((o.take n).map (· % 256)).length := by
          rw [List.length_zip]; omega
      _ ≤ n := by simp [List.length_take]
  refine ⟨?_, ?_, ?_, ?_⟩
  · intro h0
    simp only [bitErrorRate, ← hn, h0]
    rfl
  · intro hne
    simp only [bitErrorRate, ← hn]
    rw [if_neg hne]
    exact ⟨rfl, rfl, hcount original received, rfl⟩
  · simp only [bitErrorRate, ← hn]
    split
    · norm_num
    · positivity
  · simp only [bitErrorRate, ← hn]
    split
    · norm_num
    · rename_i hne
      rw [div_le_one (by positivity)]
      exact_mod_cast hcount original received

/-- Witness for C6 at `original = [1,0,1]`, `received = [1,1]`. -/
theorem C6_bit_error_rate_witness :
    min ([1, 0, 1] : List ℕ).length ([1, 1] : List ℕ).length ≠ 0 ∧
    (bitErrorRate [1, 0, 1] [1, 1]).2.2 = 2 ∧
    0 ≤ (bitErrorRate [1, 0, 1] [1, 1]).1 ∧
    (bitErrorRate [1, 0, 1] [1, 1]).1 ≤ 1 := by
  have h := C6_bit_error_rate [1, 0, 1] [1, 1]
  have hne : min ([1, 0, 1] : List ℕ).length ([1, 1] : List ℕ).length ≠ 0 := by
    decide
  exact ⟨hne, ((h.2.1 hne).1).trans (by decide), h.2.2.1, h.2.2.2⟩

/-- Claim C5: `add_awgn` on a signal of zero mean power returns the signal
values unchanged (for any SNR) without raising; on nonzero power it adds
Gaussian noise of power `P / 10^(snr/10)`: sample by sample, scaled by
`sqrt (P / 10^(snr/10))` for a real signal, and by
`sqrt ((P / 10^(snr/10)) / 2)` on each of the two components (total noise
power `P / 10^(snr/10)`) for a complex signal. -/
theorem C5_add_awgn_degenerate_signal :
    ∀ (signal : List ℝ) (signalC : List (ℝ × ℝ)) (snrDb : ℝ) (g : ℕ → ℝ) (k : ℕ),
      (meanPower signal = 0 → addAwgnReal signal snrDb g k = (signal, k)) ∧
      (meanPower signal ≠ 0 →
        addAwgnReal signal snrDb g k =
          (List.zipWith
            (fun x i =>
              x + Real.sqrt (meanPower signal / (10 : ℝ) ^ (snrDb / 10)) * g (k + i))
            signal (List.range signal.length), k + signal.length)) ∧
      (meanPowerC signalC = 0 → addAwgnComplex signalC snrDb g k = (signalC, k)) ∧
      (meanPowerC signalC ≠ 0 →
        addAwgnComplex signalC snrDb g k =
          (List.zipWith
            (fun z i =>
              (z.1 +
                  Real.sqrt (meanPowerC signalC / (10 : ℝ) ^ (snrDb / 10) / 2) *
                    g (k + i),
                z.2 +
                  Real.sqrt (meanPowerC signalC / (10 : ℝ) ^ (snrDb / 10) / 2) *
                    g (k + signalC.length + i)))
            signalC (List.range signalC.length), k + 2 * signalC.length)) := by
  intro signal signalC snr g k
  refine ⟨?_, ?_, ?_, ?_⟩
  · intro h
    simp [addAwgnReal, h]
  · intro h
    simp [addAwgnReal, h]
  · intro h
    simp [addAwgnComplex, h]
  · intro h
    simp [addAwgnComplex, h]

/-- Witness for C5: zero signals (real and complex) at SNR 7 dB pass
through unchanged, and unit-power nonzero signals at SNR 0 dB receive
noise at scale 1 (real) and scale 1 per component (complex, power 2). -/
theorem C5_add_awgn_degenerate_signal_witness :
    meanPower [0] = 0 ∧ meanPowerC [(0, 0)] = 0 ∧
    addAwgnReal [0] 7 (fun _ => 1) 0 = ([0], 0) ∧
    addAwgnComplex [(0, 0)] 7 (fun _ => 1) 0 = ([(0, 0)], 0) ∧
    meanPower [1] ≠ 0 ∧ meanPowerC [(1, 1)] ≠ 0 ∧
    addAwgnReal [1] 0 (fun _ => 1) 0 = ([2], 1) ∧
    addAwgnComplex [(1, 1)] 0 (fun _ => 1) 0 = ([(2, 2)], 2) := by
  have h0 : meanPower [0] = 0 := by simp [meanPower]
  have h0c : meanPowerC [(0, 0)] = 0 := by simp [meanPowerC]
  have hmp1 : meanPower [1] = 1 := by norm_num [meanPower]
  have hmpc1 : meanPowerC [(1, 1)] = 2 := by norm_num [meanPowerC]
  have hne : meanPower [1] ≠ 0 := by rw [hmp1]; norm_num
  have hnec : meanPowerC [(1, 1)] ≠ 0 := by rw [hmpc1]; norm_num
  have hr1 : List.range 1 = [0] := rfl
  have hlin : (10 : ℝ) ^ ((0 : ℝ) / 10) = 1 := by norm_num
  have h := C5_add_awgn_degenerate_signal [0] [(0, 0)] 7 (fun _ => 1) 0
  have h2 := C5_add_awgn_degenerate_signal [1] [(1, 1)] 0 (fun _ => 1) 0
  refine ⟨h0, h0c, h.1 h0, h.2.2.1 h0c, hne, hnec, ?_, ?_⟩
  · refine (h2.2.1 hne).trans ?_
    rw [hmp1, hlin]
    norm_num [hr1]
  · refine (h2.2.2.2 hnec).trans ?_
    rw [hmpc1, hlin]
    norm_num [hr1]

lemma manchesterEncode_length (bits : List ℕ) :
    (manchesterEncode bits).length = 2 * bits.length := by
  induction bits with
  | nil => rfl
  | cons x rest ih =>
      simp only [manchesterEncode, List.flatMap_cons] at ih ⊢
      simp only [List.length_append, List.length_cons, List.length_nil, ih]
      ring

lemma manchesterDecodeRun_encode (bits : List ℕ) (h : ∀ x ∈ bits, x ≤ 1) :
    manchesterDecodeRun (manchesterEncode bits) = bits := by
  induction bits with
  | nil => rfl
  | cons x rest ih =>
      have hx : x ≤ 1 := h x (by simp)
      have hrest : ∀ y ∈ rest, y ≤ 1 := fun y hy => h y (by simp [hy])
      have hxm : x % 256 = x := Nat.mod_eq_of_lt (by omega)
      simp only [manchesterEncode, List.flatMap_cons, List.cons_append,
        List.nil_append, manchesterDecodeRun]
      rw [hxm, hxm]
      exact congrArg (x :: ·) (ih hrest)

/-- Claim C7: `manchester_encode` maps each input bit `x` to the pair
`(1 - x, x)` and doubles the length; `manchester_decode` keeps the second
element of each consecutive pair; consequently decode ∘ encode is the
identity on bit sequences. -/
theorem C7_manchester_roundtrip :
    (∀ bits : List ℕ, (manchesterEncode bits).length = 2 * bits.length) ∧
    (∀ bits : List ℕ, (∀ x ∈ bits, x ≤ 1) →
        manchesterEncode bits = bits.flatMap fun x => [1 - x, x]) ∧
    (∀ (a b : ℕ) (rest : List ℕ),
        manchesterDecodeRun (a :: b :: rest) =
          b % 256 :: manchesterDecodeRun rest) ∧
    (∀ bits : List ℕ, (∀ x ∈ bits, x ≤ 1) →
        manchesterDecode (manchesterEncode bits) = some bits) := by
  refine ⟨manchesterEncode_length, ?_, fun a b rest => rfl, ?_⟩
  · intro bits h
    induction bits with
    | nil => rfl
    | cons x rest ih =>
        have hx : x ≤ 1 := h x (by simp)
        have hrest : ∀ y ∈ rest, y ≤ 1 := fun y hy => h y (by simp [hy])
        simp only [manchesterEncode, List.flatMap_cons] at ih ⊢
        rw [ih hrest]
        interval_cases x <;> rfl
  · intro bits h
    unfold manchesterDecode
    rw [if_pos (by rw [manchesterEncode_length]; omega)]
    exact congrArg some (manchesterDecodeRun_encode bits h)

/-- Witness for C7 at `bits = [1, 0]`. -/
theorem C7_manchester_roundtrip_witness :
    (∀ x ∈ ([1, 0] : List ℕ), x ≤ 1) ∧
    manchesterEncode [1, 0] = [0, 1, 1, 0] ∧
    manchesterDecode (manchesterEncode [1, 0]) = some [1, 0] := by
  have h := C7_manchester_roundtrip
  have hv : ∀ x ∈ ([1, 0] : List ℕ), x ≤ 1 := by decide
  exact ⟨hv, (h.2.1 [1, 0] hv).trans (by decide), h.2.2.2 [1, 0] hv⟩

lemma natBinMSB_digits_le_one : ∀ n : ℕ, ∀ b ∈ natBinMSB n, b ≤ 1 := by
  intro n
  induction n using Nat.strong_induction_on with
  | _ n ih =>
      intro b hb
      by_cases h : n = 0
      · subst h
        rw [natBinMSB] at hb
        simp at hb
      · rw [natBinMSB] at hb
        simp only [h, dite_false, List.mem_append, List.mem_singleton] at hb
        rcases hb with hb | hb
        · exact ih (n / 2) (Nat.div_lt_self (Nat.pos_of_ne_zero h) one_lt_two) b hb
        · omega

lemma natBinMSB_length_le : ∀ (k n : ℕ), n < 2 ^ k → (natBinMSB n).length ≤ k := by
  intro k
  induction k with
  | zero =>
      intro n hn
      have : n = 0 := by simpa using hn
      subst this
      rw [natBinMSB]
      simp
  | succ k ih =>
      intro n hn
      by_cases h : n = 0
      · subst h
        rw [natBinMSB]
        simp
      · rw [natBinMSB]
        simp only [h, dite_false, List.length_append, List.length_singleton]
        have hdiv : n / 2 < 2 ^ k := by
          have h2 : 2 ^ (k + 1) = 2 ^ k * 2 := pow_succ 2 k
          omega
        have := ih (n / 2) hdiv
        omega

lemma natBinMSB_foldl : ∀ (n : ℕ) (a : ℕ),
    (natBinMSB n).foldl (fun v b => 2 * v + b) a =
      a * 2 ^ (natBinMSB n).length + n := by
  intro n
  induction n using Nat.strong_induction_on with
  | _ n ih =>
      intro a
      by_cases h : n = 0
      · subst h
        rw [natBinMSB]
        simp
      · rw [natBinMSB]
        simp only [h, dite_false]
        rw [List.foldl_append]
        rw [ih (n / 2) (Nat.div_lt_self (Nat.pos_of_ne_zero h) one_lt_two) a]
        simp only [List.foldl_cons, List.foldl_nil, List.length_append,
          List.length_singleton]
        have hp : 2 ^ ((natBinMSB (n / 2)).length + 1) =
            2 ^ (natBinMSB (n / 2)).length * 2 := pow_succ 2 _
        rw [hp]
        have hmul : a * (2 ^ (natBinMSB (n / 2)).length * 2) =
            2 * (a * 2 ^ (natBinMSB (n / 2)).length) := by ring
        rw [hmul]
        set Q := a * 2 ^ (natBinMSB (n / 2)).length with hQ
        omega

lemma two_mul_lor_one (v : ℕ) : 2 * v ||| 1 = 2 * v + 1 := by
  have h1 : 2 * v = Nat.bit false v := by simp [Nat.bit_val]
  have h2 : (1 : ℕ) = Nat.bit true 0 := by simp [Nat.bit_val]
  rw [h1, h2, Nat.lor_bit]
  simp [Nat.bit_val]

lemma shiftor_step (v b : ℕ) (hb : b ≤ 1) : (v <<< 1) ||| b = 2 * v + b := by
  have hs : v <<< 1 = 2 * v := by
    rw [Nat.shiftLeft_eq]
    ring
  rw [hs]
  interval_cases b
  · simp
  · exact two_mul_lor_one v

lemma foldl_byte_eq : ∀ (l : List ℕ), (∀ b ∈ l, b ≤ 1) → ∀ a : ℕ,
    l.foldl (fun v b => (v <<< 1) ||| b) a = l.foldl (fun v b => 2 * v + b) a := by
  intro l
  induction l with
  | nil => intro _ a; rfl
  | cons x rest ih =>
      intro h a
      simp only [List.foldl_cons]
      rw [shiftor_step a x (h x (by simp))]
      exact ih (fun y hy => h y (by simp [hy])) _

lemma foldl_double_replicate_zero : ∀ m : ℕ,
    (List.replicate m 0).foldl (fun v b => 2 * v + b) 0 = 0 := by
  intro m
  induction m with
  | zero => rfl
  | succ m ih => simpa [List.replicate_succ] using ih

lemma format08b_le_one (c : ℕ) : ∀ b ∈ format08b c, b ≤ 1 := by
  intro b hb
  unfold format08b at hb
  rcases List.mem_append.1 hb with hb | hb
  · have := List.eq_of_mem_replicate hb
    omega
  · exact natBinMSB_digits_le_one c b hb

lemma format08b_length (c : ℕ) (hc : c < 256) : (format08b c).length = 8 := by
  have h8 : (natBinMSB c).length ≤ 8 := natBinMSB_length_le 8 c (by norm_num; omega)
  unfold format08b
  simp only [List.length_append, List.length_replicate]
  omega

lemma byteVal_format08b (c : ℕ) : byteVal (format08b c) = c := by
  unfold byteVal
  rw [foldl_byte_eq _ (format08b_le_one c) 0]
  unfold format08b
  rw [List.foldl_append]
  rw [foldl_double_replicate_zero]
  rw [natBinMSB_foldl c 0]
  simp

lemma map_mod256_of_le_one (l : List ℕ) (h : ∀ x ∈ l, x ≤ 1) :
    l.map (· % 256) = l := by
  conv_rhs => rw [← List.map_id l]
  apply List.map_congr_left
  intro a ha
  exact Nat.mod_eq_of_lt (lt_of_le_of_lt (h a ha) (by norm_num))

lemma textToBits_le_one (message : List ℕ) : ∀ b ∈ textToBits message, b ≤ 1 := by
  intro b hb
  simp only [textToBits, List.mem_flatMap] at hb
  obtain ⟨c, -, hc⟩ := hb
  exact format08b_le_one c b hc

lemma textToBits_length (message : List ℕ) (h : ∀ c ∈ message, c < 256) :
    (textToBits message).length = 8 * message.length := by
  induction message with
  | nil => rfl
  | cons c rest ih =>
      simp only [textToBits, List.flatMap_cons, List.length_append] at ih ⊢
      rw [format08b_length c (h c (by simp)), ih (fun y hy => h y (by simp [hy]))]
      simp only [List.length_cons]
      ring

lemma toBytes_append_eight (B rest : List ℕ) (h : B.length = 8) :
    toBytes (B ++ rest) = byteVal B :: toBytes rest := by
  rcases B with _ | ⟨b0, _ | ⟨b1, _ | ⟨b2, _ | ⟨b3, _ | ⟨b4, _ | ⟨b5, _ | ⟨b6, _ |
    ⟨b7, tail⟩⟩⟩⟩⟩⟩⟩⟩ <;>
    simp only [List.length_cons, List.length_nil] at h
  all_goals try omega
  have htail : tail = [] := List.eq_nil_of_length_eq_zero (by omega)
  subst htail
  rfl

lemma toBytes_textToBits (message : List ℕ) (h : ∀ c ∈ message, c < 256) :
    toBytes (textToBits message) = message := by
  induction message with
  | nil => rfl
  | cons c rest ih =>
      have hstep : textToBits (c :: rest) = format08b c ++ textToBits rest := by
        simp [textToBits]
      rw [hstep, toBytes_append_eight _ _ (format08b_length c (h c (by simp)))]
      rw [byteVal_format08b, ih (fun y hy => h y (by simp [hy]))]

/-- Claim C9: for a message from the legal character set (codes below 256),
`text_to_bits` emits exactly 8 bits per character and
`bits_to_text (text_to_bits m)` recovers the message exactly. -/
theorem C9_text_bits_roundtrip : ∀ message : List ℕ, (∀ c ∈ message, c < 256) →
    (textToBits message).length = 8 * message.length ∧
    bitsToText (textToBits message) = some message := by
  intro message h
  have hlen := textToBits_length message h
  refine ⟨hlen, ?_⟩
  simp only [bitsToText]
  rw [if_pos (by omega)]
  rw [map_mod256_of_le_one _ (textToBits_le_one message)]
  exact congrArg some (toBytes_textToBits message h)

/-- Witness for C9 at the message "Hi" (character codes 72, 105). -/
theorem C9_text_bits_roundtrip_witness :
    (∀ c ∈ ([72, 105] : List ℕ), c < 256) ∧
    bitsToText (textToBits [72, 105]) = some [72, 105] :=
  ⟨by decide, (C9_text_bits_roundtrip [72, 105] (by decide)).2⟩

lemma qpskPairs_decode : ∀ (l : List ℕ), (∀ b ∈ l, b ≤ 1) → l.length % 2 = 0 →
    ∃ s, qpskPairs l = some s ∧ s.flatMap quadrantBits = l
  | [], _, _ => ⟨[], rfl, rfl⟩
  | [a], _, he => by simp at he
  | a :: b :: rest, hv, he => by
      have ha : a ≤ 1 := hv a (by simp)
      have hb : b ≤ 1 := hv b (by simp)
      obtain ⟨s, hs, hd⟩ := qpskPairs_decode rest
        (fun y hy => hv y (by simp [hy]))
        (by simp only [List.length_cons] at he ⊢; omega)
      interval_cases a <;> interval_cases b
      · exact ⟨(1, 1) :: s, by simp [qpskPairs, qpskMapPair, hs],
          by norm_num [quadrantBits, hd]⟩
      · exact ⟨(-1, 1) :: s, by simp [qpskPairs, qpskMapPair, hs],
          by norm_num [quadrantBits, hd]⟩
      · exact ⟨(1, -1) :: s, by simp [qpskPairs, qpskMapPair, hs],
          by norm_num [quadrantBits, hd]⟩
      · exact ⟨(-1, -1) :: s, by simp [qpskPairs, qpskMapPair, hs],
          by norm_num [quadrantBits, hd]⟩

lemma map_scale_unscale (s : List (ℝ × ℝ)) :
    (s.map fun p => (p.1 / Real.sqrt 2, p.2 / Real.sqrt 2)).map
      (fun p => (p.1 * Real.sqrt 2, p.2 * Real.sqrt 2)) = s := by
  have h2 : Real.sqrt 2 ≠ 0 := by positivity
  rw [List.map_map]
  conv_rhs => rw [← List.map_id s]
  apply List.map_congr_left
  intro p hp
  simp [Function.comp, div_mul_cancel₀, h2]

lemma qpsk_roundtrip_main : ∀ bits : List ℕ, (∀ b ∈ bits, b ≤ 1) →
    ((qpskModulate bits).map fun sp => qpskDemodulate sp.1 sp.2) = some bits := by
  intro bits hv
  simp only [qpskModulate]
  rw [map_mod256_of_le_one bits hv]
  by_cases hodd : bits.length % 2 = 1
  · rw [if_pos hodd, if_pos hodd]
    obtain ⟨s, hs, hd⟩ := qpskPairs_decode (bits ++ [0])
      (by
        intro y hy
        rcases List.mem_append.1 hy with hy | hy
        · exact hv y hy
        · simp at hy; omega)
      (by simp only [List.length_append, List.length_singleton]; omega)
    rw [hs]
    simp only [Option.map_some']
    congr 1
    simp only [qpskDemodulate, map_scale_unscale, hd]
    rw [if_pos (by omega)]
    have hlen : (bits ++ [0]).length - 1 = bits.length := by simp
    rw [hlen, List.take_left]
  · rw [if_neg hodd, if_neg hodd]
    obtain ⟨s, hs, hd⟩ := qpskPairs_decode bits hv (by omega)
    rw [hs]
    simp only [Option.map_some']
    congr 1
    simp only [qpskDemodulate, map_scale_unscale, hd]
    rw [if_neg (by omega)]

/-- Claim C4: for every bit sequence (even or odd length) the QPSK
modulate/demodulate pair, with the padding count reported by
`qpsk_modulate`, is the identity; in particular `[1,0,1]` modulates to 2
symbols with padding 1 and demodulates back to exactly `[1,0,1]`. -/
theorem C4_qpsk_roundtrip :
    (∀ bits : List ℕ, (∀ b ∈ bits, b ≤ 1) →
        ((qpskModulate bits).map fun sp => qpskDemodulate sp.1 sp.2) = some bits) ∧
    ((qpskModulate [1, 0, 1]).map fun sp => (sp.1.length, sp.2)) = some (2, 1) ∧
    ((qpskModulate [1, 0, 1]).map fun sp => qpskDemodulate sp.1 sp.2) =
      some [1, 0, 1] := by
  refine ⟨qpsk_roundtrip_main, ?_, qpsk_roundtrip_main [1, 0, 1] (by decide)⟩
  norm_num [qpskModulate, qpskPairs, qpskMapPair]

/-- Witness for C4 at `bits = [0, 1]`. -/
theorem C4_qpsk_roundtrip_witness :
    (∀ b ∈ ([0, 1] : List ℕ), b ≤ 1) ∧
    ((qpskModulate [0, 1]).map fun sp => qpskDemodulate sp.1 sp.2) =
      some [0, 1] :=
  ⟨by decide, C4_qpsk_roundtrip.1 [0, 1] (by decide)⟩

/-- Claim C1 (code bug): `run_full_simulation` accepts no `iterations`
parameter, so the `run_full_simulation(iterations=50, …)` calls in `main`
do not bind (Python raises TypeError), and the BER array the function
returns per scheme is the output of a single `simulate_ber_*` trial — there
is no trial loop, no accumulation matrix and no averaging. -/
theorem C1_no_iterations_parameter :
    callBindsOk runFullSimulationParams mainCallKwargs = false ∧
    "iterations" ∈ mainCallKwargs ∧
    "iterations" ∉ runFullSimulationParams ∧
    ∀ (message : List ℕ) (snrs : List ℝ) (g : ℕ → ℝ) (k : ℕ),
      (runFullSimulation message snrs g k).2.1 =
        (simulateBerBpsk (textToBits message) snrs true g k).1 :=
  ⟨by decide, by decide, by decide, fun _ _ _ _ => rfl⟩

lemma addAwgnReal_counter (signal : List ℝ) (snrDb : ℝ) (g : ℕ → ℝ) (k : ℕ) :
    (addAwgnReal signal snrDb g k).2 = k + awgnConsumedReal signal := by
  by_cases h : meanPower signal = 0 <;>
    simp [addAwgnReal, awgnConsumedReal, h]

lemma bpskStep_counter (tx orig : List ℕ) (useManchester : Bool) (snrDb : ℝ)
    (g : ℕ → ℝ) (k : ℕ) :
    (bpskStep tx orig useManchester snrDb g k).2 =
      k + awgnConsumedReal (bpskModulate tx) := by
  simp only [bpskStep]
  exact addAwgnReal_counter _ _ _ _

lemma bpskLoop_counter : ∀ (snrs : List ℝ) (tx orig : List ℕ)
    (useManchester : Bool) (g : ℕ → ℝ) (k : ℕ),
    (simulateBerBpskLoop tx orig snrs useManchester g k).2 =
      k + snrs.length * awgnConsumedReal (bpskModulate tx) := by
  intro snrs
  induction snrs with
  | nil => intro tx orig useM g k; simp [simulateBerBpskLoop]
  | cons snr rest ih =>
      intro tx orig useM g k
      simp only [simulateBerBpskLoop]
      rw [ih, bpskStep_counter]
      simp only [List.length_cons]
      ring

/-- Claim C3 (amended): within one trial the noise is drawn afresh at each
SNR point, not once per trial: every `bpskStep` advances the random stream
by one `add_awgn` buffer (the modulated-signal length, when its power is
nonzero), and after the whole sweep the stream has advanced by
`#SNR points × buffer size` — successive SNR points read disjoint, fresh
stream segments; only the scale `sqrt (P / 10^(snr/10))` depends on the
SNR. -/
theorem C3_fresh_noise_each_snr :
    ∀ (tx orig : List ℕ) (useManchester : Bool) (g : ℕ → ℝ) (k : ℕ),
      (∀ snrDb : ℝ, (bpskStep tx orig useManchester snrDb g k).2 =
          k + awgnConsumedReal (bpskModulate tx)) ∧
      (∀ snrs : List ℝ,
          (simulateBerBpskLoop tx orig snrs useManchester g k).2 =
            k + snrs.length * awgnConsumedReal (bpskModulate tx)) :=
  fun tx orig useM g k =>
    ⟨fun snr => bpskStep_counter tx orig useM snr g k,
     fun snrs => bpskLoop_counter snrs tx orig useM g k⟩

lemma bpskStep_eval (g : ℕ → ℝ) (k : ℕ) :
    bpskStep [1] [1] false 0 g k =
      (if 0 ≤ 1 + g k then (0 : ℚ) else 1, k + 1) := by
  have hmod : bpskModulate [1] = [1] := by norm_num [bpskModulate]
  have hmp : meanPower [1] = 1 := by norm_num [meanPower]
  have he : bpskEsN0 false 0 = 0 := by simp [bpskEsN0]
  have hlin : (10 : ℝ) ^ ((0 : ℝ) / 10) = 1 := by norm_num
  have hr : List.range 1 = [0] := rfl
  simp only [bpskStep, hmod, he, addAwgnReal, hmp, hlin]
  rw [if_neg one_ne_zero]
  simp only [List.length_singleton, hr, List.zipWith_cons_cons,
    List.zipWith_nil_right, one_div, Real.sqrt_one, div_one, one_mul,
    Nat.add_zero]
  simp only [Bool.false_eq_true, if_false, bpskDemodulate, List.map_cons,
    List.map_nil]
  have hb1 : (bitErrorRate [1] [1]).1 = 0 := by
    simp [bitErrorRate]
  have hb0 : (bitErrorRate [1] [0]).1 = 1 := by
    simp [bitErrorRate]
  by_cases hg : 0 ≤ 1 + g k
  · rw [if_pos hg, if_pos hg, hb1]
  · rw [if_neg hg, if_neg hg, hb0]

/-- Claim C3 counterexample: two random streams that agree on the first
`add_awgn` buffer of the trial (position 0, the whole buffer for a
one-sample signal) produce different BER sequences over the sweep
`[0 dB, 0 dB]` — so the later SNR points do not reuse the first draw: the
noise buffer is not drawn once per trial. -/
theorem C3_noise_not_reused :
    ((fun i : ℕ => if i = 0 then (0 : ℝ) else -3) 0 = (fun _ : ℕ => (0 : ℝ)) 0) ∧
    (simulateBerBpskLoop [1] [1] [0, 0] false (fun _ : ℕ => (0 : ℝ)) 0).1 =
      [0, 0] ∧
    (simulateBerBpskLoop [1] [1] [0, 0] false
        (fun i : ℕ => if i = 0 then (0 : ℝ) else -3) 0).1 = [0, 1] := by
  refine ⟨by norm_num, ?_, ?_⟩
  · simp only [simulateBerBpskLoop, bpskStep_eval]
    norm_num
  · simp only [simulateBerBpskLoop, bpskStep_eval]
    norm_num

/-- Witness for the amended C8 at concrete valid-length inputs and one
padded QPSK demodulation. -/
theorem C8_invalid_length_errors_witness :
    (bitsToText [0, 0, 0, 0, 0, 0, 0, 0]).isSome ∧
    (manchesterDecode [1, 0]).isSome ∧
    (qpskDemodulate [((1 : ℝ), 1)] 1).length = 1 := by
  have h := C8_invalid_length_errors
  exact ⟨(h.1 [0, 0, 0, 0, 0, 0, 0, 0]).mpr (by decide),
    (h.2.1 [1, 0]).mpr (by decide),
    (h.2.2 [((1 : ℝ), 1)] 1).trans (by norm_num)⟩

/-- Witness for C10 at concrete noisy symbols. -/
theorem C10_demodulators_reestablish_bits_witness :
    (bpskDemodulate [-2, 3]).length = 2 ∧
    (∀ b ∈ bpskDemodulate [-2, 3], b = 0 ∨ b = 1) ∧
    (∀ b ∈ qpskDemodulate [((1 : ℝ), -1)] 0, b = 0 ∨ b = 1) := by
  have h := C10_demodulators_reestablish_bits
  exact ⟨((h.1 [-2, 3]).1).trans rfl, (h.1 [-2, 3]).2, h.2.1 [((1 : ℝ), -1)] 0⟩
